import Mathlib

set_option maxHeartbeats 1600000
set_option maxRecDepth 4096

/-!
Shallow embedding of the fragmentation/reassembly protocol implemented in
`src/net/packet.cc` of the alfalfa repository.

Byte buffers are `List Nat` (each entry one byte of the buffer); machine
integers are `Nat`, with `% 2 ^ 16` taken exactly where the C++ narrows a
value into a `uint16_t`.  Fallible constructors and methods (which throw
`std::runtime_error` in the C++) are modelled as `Except PacketError`.
The UDP socket collaborator is modelled by returning the list of datagrams
that would be written to it, in order.
-/

instance {ε α : Type} [DecidableEq ε] [DecidableEq α] : DecidableEq (Except ε α) := fun
  | .ok a, .ok b =>
    if h : a = b then .isTrue (by rw [h])
    else .isFalse (by intro hc; injection hc; contradiction)
  | .ok _, .error _ => .isFalse (by intro hc; exact Except.noConfusion hc)
  | .error _, .ok _ => .isFalse (by intro hc; exact Except.noConfusion hc)
  | .error a, .error b =>
    if h : a = b then .isTrue (by rw [h])
    else .isFalse (by intro hc; injection hc; contradiction)

/-- Error taxonomy of the protocol layer (spec section 7).  Every
`runtime_error` thrown in `packet.cc` is one of these three kinds:
parse failures of an incoming buffer, identity mismatches in
`FragmentedFrame::sanity_check`, and completeness violations in
`FragmentedFrame::frame` / `FragmentedFrame::send`. -/
inductive PacketError where
  | MalformedPacket
  | ProtocolMismatch
  | IncompleteFrame
deriving DecidableEq, Repr

/-- Little-endian value of a byte list: `le_value [b0, b1, ...] = b0 + 256*b1 + ...`. -/
def Chunk.le_value (bytes : List Nat) : Nat :=
  bytes.foldr (fun b acc => b + 256 * acc) 0

/-- Modelled from the spec: the Byte-Cursor (`Chunk`, declared in the
repository's utility headers, which are not under `src/`).  Spec section 4.1:
every accessor validates `offset + width <= buffer length` and fails with a
MalformedPacket error on violation; `str(off, w).le16()`/`.le32()` extract a
little-endian integer of width `w` at `off`. -/
def Chunk.read_le (buf : List Nat) (off width : Nat) : Except PacketError Nat :=
  if off + width ≤ buf.length then
    .ok (Chunk.le_value ((buf.drop off).take width))
  else
    .error .MalformedPacket

/-- Modelled from the spec: `str(off)` of the Byte-Cursor, the suffix of the
buffer from `off` on; fails with MalformedPacket when `off` exceeds the
buffer length (spec section 4.1). -/
def Chunk.rest (buf : List Nat) (off : Nat) : Except PacketError (List Nat) :=
  if off ≤ buf.length then
    .ok (buf.drop off)
  else
    .error .MalformedPacket

/-- `PacketUtils::put_header_field(uint16_t)` (packet.cc lines 11-16):
the two little-endian bytes of a 16-bit value. -/
def PacketUtils.put_header_field_u16 (n : Nat) : List Nat :=
  [n % 256, n / 256 % 256]

/-- `PacketUtils::put_header_field(uint32_t)` (packet.cc lines 18-23):
the four little-endian bytes of a 32-bit value. -/
def PacketUtils.put_header_field_u32 (n : Nat) : List Nat :=
  [n % 256, n / 256 % 256, n / 65536 % 256, n / 16777216 % 256]

/-- One wire fragment (`class Packet` of packet.cc).  Field widths in the
C++ (from the wire format, spec section 6): `connection_id`, `fragment_no`,
`fragments_in_this_frame` are `uint16_t`; `frame_no`, `time_to_next` are
32-bit on the wire. -/
structure Packet where
  valid : Bool
  connection_id : Nat
  frame_no : Nat
  fragment_no : Nat
  fragments_in_this_frame : Nat
  time_to_next : Nat
  payload : List Nat
deriving DecidableEq, Repr

/-- The default `Packet::Packet()` constructor (packet.cc lines 72-80):
an empty, invalid packet with all fields value-initialised. -/
def Packet.empty : Packet :=
  { valid := false, connection_id := 0, frame_no := 0, fragment_no := 0,
    fragments_in_this_frame := 0, time_to_next := 0, payload := [] }

/-- The outgoing `Packet` constructor (packet.cc lines 25-50): slice number
`fragment_no` of `whole_frame`, together with the `next_fragment_start`
output parameter.  `MAXIMUM_PAYLOAD` is the payload cap (a configured
constant in the headers, not under `src/`; spec section 6 makes it an
explicit configuration input of the splitting algorithm, so it is a
parameter here). -/
def Packet.outgoing (MAXIMUM_PAYLOAD : Nat) (whole_frame : List Nat)
    (connection_id frame_no fragment_no time_to_next : Nat) : Packet × Nat :=
  let first_byte := MAXIMUM_PAYLOAD * fragment_no
  let length := min (whole_frame.length - first_byte) MAXIMUM_PAYLOAD
  ({ valid := true, connection_id := connection_id, frame_no := frame_no,
     fragment_no := fragment_no, fragments_in_this_frame := 0,
     time_to_next := time_to_next,
     payload := (whole_frame.drop first_byte).take length },
   first_byte + length)

/-- The incoming `Packet` constructor (packet.cc lines 53-69): reads the five
header fields little-endian at offsets 0, 2, 6, 8, 10, takes the rest from
offset 14 as payload, and rejects `fragment_no >= fragments_in_this_frame`
and an empty payload. -/
def Packet.parse (buf : List Nat) : Except PacketError Packet :=
  (Chunk.read_le buf 0 2).bind fun connection_id =>
  (Chunk.read_le buf 2 4).bind fun frame_no =>
  (Chunk.read_le buf 6 2).bind fun fragment_no =>
  (Chunk.read_le buf 8 2).bind fun fragments_in_this_frame =>
  (Chunk.read_le buf 10 4).bind fun time_to_next =>
  (Chunk.rest buf 14).bind fun payload =>
  if fragment_no ≥ fragments_in_this_frame then
    .error .MalformedPacket
  else if payload = [] then
    .error .MalformedPacket
  else
    .ok { valid := true, connection_id := connection_id, frame_no := frame_no,
          fragment_no := fragment_no,
          fragments_in_this_frame := fragments_in_this_frame,
          time_to_next := time_to_next, payload := payload }

/-- `Packet::to_string` (packet.cc lines 83-93): the five encoded header
fields followed by the raw payload. -/
def Packet.to_string (p : Packet) : List Nat :=
  PacketUtils.put_header_field_u16 p.connection_id
    ++ PacketUtils.put_header_field_u32 p.frame_no
    ++ PacketUtils.put_header_field_u16 p.fragment_no
    ++ PacketUtils.put_header_field_u16 p.fragments_in_this_frame
    ++ PacketUtils.put_header_field_u32 p.time_to_next
    ++ p.payload

/-- `Packet::set_fragments_in_this_frame` (packet.cc lines 95-99).  The
member is a `uint16_t` (spec section 3: 16-bit total fragment count), so the
stored value is the argument reduced `% 2 ^ 16`; the C++ caller always
passes a value already narrowed to `uint16_t`. -/
def Packet.set_fragments_in_this_frame (p : Packet) (x : Nat) : Packet :=
  { p with fragments_in_this_frame := x % 65536 }

/-- `Packet::set_time_to_next` (declared in the header; sets the
`time_to_next_` field). -/
def Packet.set_time_to_next (p : Packet) (x : Nat) : Packet :=
  { p with time_to_next := x }

/-- The reassembly/splitting state machine (`class FragmentedFrame`). -/
structure FragmentedFrame where
  connection_id : Nat
  frame_no : Nat
  fragments_in_this_frame : Nat
  fragments : List Packet
  remaining_fragments : Nat
deriving DecidableEq, Repr

/-- The splitting loop of the outgoing `FragmentedFrame` constructor
(packet.cc lines 112-118):
`for (uint16_t fragment_no = 0; next_fragment_start < whole_frame.size(); fragment_no++)`.
The loop counter is a `uint16_t`: `gas` counts the distinct counter values
still available before the counter wraps (`gas = 2 ^ 16 - fragment_no`).
Once all 65536 values are used while bytes remain, the wrapped counter makes
the loop restart from offset 0 and never reach the end of the buffer, so the
C++ loop never terminates; that divergence is modelled as `none`. -/
def FragmentedFrame.split_loop (MAXIMUM_PAYLOAD : Nat) (whole_frame : List Nat)
    (connection_id frame_no : Nat) :
    Nat → Nat → Nat → Option (List Packet)
  | gas, fragment_no, next_fragment_start =>
    if next_fragment_start < whole_frame.length then
      match gas with
      | 0 => none
      | g + 1 =>
        match FragmentedFrame.split_loop MAXIMUM_PAYLOAD whole_frame
                connection_id frame_no g (fragment_no + 1)
                (Packet.outgoing MAXIMUM_PAYLOAD whole_frame connection_id
                  frame_no fragment_no 0).2 with
        | some ps =>
          some ((Packet.outgoing MAXIMUM_PAYLOAD whole_frame connection_id
                  frame_no fragment_no 0).1 :: ps)
        | none => none
    else
      some []

/-- Mutate the last element of the fragment list, as
`fragments_.back().set_time_to_next(...)` does (packet.cc line 120). -/
def FragmentedFrame.set_back_time_to_next (ttn : Nat) : List Packet → List Packet
  | [] => []
  | [p] => [p.set_time_to_next ttn]
  | p :: q :: ps => p :: FragmentedFrame.set_back_time_to_next ttn (q :: ps)

/-- The outgoing `FragmentedFrame` constructor (packet.cc lines 102-128):
run the splitting loop from offset 0, set `time_to_next_frame` on the last
fragment, record `fragments_in_this_frame_ = fragments_.size()` (a
`uint16_t` member, hence `% 2 ^ 16`; spec section 3) and propagate it to
every fragment.  `none` models the two non-returning paths: the
never-terminating loop (more than 2 ^ 16 slices needed) and
`fragments_.back()` on an empty vector (empty input buffer, excluded by the
`assert` on line 39). -/
def FragmentedFrame.outgoing (MAXIMUM_PAYLOAD connection_id frame_no
    time_to_next_frame : Nat) (whole_frame : List Nat) :
    Option FragmentedFrame :=
  match FragmentedFrame.split_loop MAXIMUM_PAYLOAD whole_frame connection_id
          frame_no 65536 0 0 with
  | none => none
  | some [] => none
  | some (f :: fs) =>
    let frags := FragmentedFrame.set_back_time_to_next time_to_next_frame (f :: fs)
    let fitf := (f :: fs).length
    some { connection_id := connection_id, frame_no := frame_no,
           fragments_in_this_frame := fitf % 65536,
           fragments := frags.map (fun p => p.set_fragments_in_this_frame fitf),
           remaining_fragments := 0 }

/-- `FragmentedFrame::sanity_check` (packet.cc lines 144-161): the four
identity checks, in source order; any violation throws, modelled as a
ProtocolMismatch error. -/
def FragmentedFrame.sanity_check (ff : FragmentedFrame) (packet : Packet) :
    Except PacketError Unit :=
  if packet.connection_id ≠ ff.connection_id then
    .error .ProtocolMismatch
  else if packet.fragments_in_this_frame ≠ ff.fragments_in_this_frame then
    .error .ProtocolMismatch
  else if packet.frame_no ≠ ff.frame_no then
    .error .ProtocolMismatch
  else if packet.fragment_no ≥ ff.fragments_in_this_frame then
    .error .ProtocolMismatch
  else
    .ok ()

/-- `FragmentedFrame::add_packet` (packet.cc lines 164-172): sanity-check
first (throwing before any mutation), then, only if the target slot is not
yet valid, decrement `remaining_fragments_` and store the packet. -/
def FragmentedFrame.add_packet (ff : FragmentedFrame) (packet : Packet) :
    Except PacketError FragmentedFrame :=
  match ff.sanity_check packet with
  | .error e => .error e
  | .ok _ =>
    if (ff.fragments.getD packet.fragment_no Packet.empty).valid then
      .ok ff
    else
      .ok { ff with
            remaining_fragments := ff.remaining_fragments - 1,
            fragments := ff.fragments.set packet.fragment_no packet }

/-- The incoming `FragmentedFrame` constructor (packet.cc lines 131-142):
identity taken from the founding packet, `fragments_in_this_frame` empty
slots, `remaining_fragments = fragments_in_this_frame`; then `sanity_check`
(which can only fail on the caller-supplied `connection_id` or on
`fragment_no >= fragments_in_this_frame`) followed by `add_packet`. -/
def FragmentedFrame.incoming (connection_id : Nat) (packet : Packet) :
    Except PacketError FragmentedFrame :=
  let ff : FragmentedFrame :=
    { connection_id := connection_id,
      frame_no := packet.frame_no,
      fragments_in_this_frame := packet.fragments_in_this_frame,
      fragments := List.replicate packet.fragments_in_this_frame Packet.empty,
      remaining_fragments := packet.fragments_in_this_frame }
  match ff.sanity_check packet with
  | .error e => .error e
  | .ok _ => ff.add_packet packet

/-- `FragmentedFrame::send` (packet.cc lines 175-184): guard
`fragments_.size() != fragments_in_this_frame_`, then serialize every
fragment in vector order.  The socket is modelled by the ordered list of
datagrams written to it. -/
def FragmentedFrame.send (ff : FragmentedFrame) :
    Except PacketError (List (List Nat)) :=
  if ff.fragments.length ≠ ff.fragments_in_this_frame then
    .error .IncompleteFrame
  else
    .ok (ff.fragments.map Packet.to_string)

/-- `FragmentedFrame::complete` (packet.cc lines 186-189). -/
def FragmentedFrame.complete (ff : FragmentedFrame) : Bool :=
  ff.remaining_fragments == 0

/-- `FragmentedFrame::frame` (packet.cc lines 191-204): requires
completeness, then concatenates every slot's payload in order. -/
def FragmentedFrame.frame (ff : FragmentedFrame) :
    Except PacketError (List Nat) :=
  if ff.complete then
    .ok ((ff.fragments.map Packet.payload).flatten)
  else
    .error .IncompleteFrame

/-- `FragmentedFrame::partial_frame` (packet.cc lines 206-219): concatenate
payloads from slot 0 up to (excluding) the first invalid slot. -/
def FragmentedFrame.partial_frame (ff : FragmentedFrame) : List Nat :=
  ((ff.fragments.takeWhile fun f => f.valid).map Packet.payload).flatten

/-- Feed a list of packets into a frame with successive `add_packet` calls,
stopping at the first error (an exception in the C++ caller's loop). -/
def FragmentedFrame.add_all : FragmentedFrame → List Packet →
    Except PacketError FragmentedFrame
  | ff, [] => .ok ff
  | ff, packet :: rest =>
    match ff.add_packet packet with
    | .error e => .error e
    | .ok ff' => ff'.add_all rest

/-- The acknowledgment message (`class AckPacket`, packet.cc lines 221-247). -/
structure AckPacket where
  connection_id : Nat
  frame_no : Nat
  fragment_no : Nat
  avg_delay : Nat
deriving DecidableEq, Repr

/-- The incoming `AckPacket` constructor (packet.cc lines 229-234): four
little-endian reads at offsets 0, 2, 6, 8; no cross-field checks. -/
def AckPacket.parse (buf : List Nat) : Except PacketError AckPacket :=
  (Chunk.read_le buf 0 2).bind fun connection_id =>
  (Chunk.read_le buf 2 4).bind fun frame_no =>
  (Chunk.read_le buf 6 2).bind fun fragment_no =>
  (Chunk.read_le buf 8 4).bind fun avg_delay =>
  .ok { connection_id := connection_id, frame_no := frame_no,
        fragment_no := fragment_no, avg_delay := avg_delay }

/-- `AckPacket::to_string` (packet.cc lines 236-242): the 12-byte
serialization. -/
def AckPacket.to_string (a : AckPacket) : List Nat :=
  PacketUtils.put_header_field_u16 a.connection_id
    ++ PacketUtils.put_header_field_u32 a.frame_no
    ++ PacketUtils.put_header_field_u16 a.fragment_no
    ++ PacketUtils.put_header_field_u32 a.avg_delay

/-! ### Helper lemmas -/

theorem sanity_check_ok_iff (ff : FragmentedFrame) (p : Packet) :
    ff.sanity_check p = .ok () ↔
      p.connection_id = ff.connection_id ∧
      p.fragments_in_this_frame = ff.fragments_in_this_frame ∧
      p.frame_no = ff.frame_no ∧
      p.fragment_no < ff.fragments_in_this_frame := by
  simp only [FragmentedFrame.sanity_check]
  split_ifs with h1 h2 h3 h4 <;> simp <;> omega

theorem getD_set_self {l : List Packet} {j : Nat} (h : j < l.length)
    (p : Packet) : (l.set j p).getD j Packet.empty = p := by
  rw [List.getD_eq_getElem _ _ (by simpa using h)]
  exact List.getElem_set_self (by simpa using h)

theorem getD_set_ne {l : List Packet} {i j : Nat} (h : j ≠ i) (p : Packet) :
    (l.set j p).getD i Packet.empty = l.getD i Packet.empty := by
  by_cases hi : i < l.length
  · rw [List.getD_eq_getElem _ _ (by simpa using hi),
      List.getD_eq_getElem _ _ hi]
    exact List.getElem_set_ne h _
  · have hi' : l.length ≤ i := by omega
    rw [List.getD_eq_default _ _ hi', List.getD_eq_default _ _ (by simpa using hi')]

theorem getD_replicate {n j : Nat} (h : j < n) (a : Packet) :
    (List.replicate n a).getD j Packet.empty = a := by
  rw [List.getD_eq_getElem _ _ (by simpa using h)]
  simp

theorem takeWhile_eq_take_of (q : Packet → Bool) :
    ∀ (l : List Packet) (k : Nat), k ≤ l.length →
      (∀ i, i < k → q (l.getD i Packet.empty) = true) →
      (∀ _ : k < l.length, q (l.getD k Packet.empty) = false) →
      l.takeWhile q = l.take k
  | [], k, hk, _, _ => by simp
  | a :: t, 0, _, _, hstop => by
    have hqa := hstop (by simp)
    rw [List.getD_cons_zero] at hqa
    have hneg : ¬q a = true := by simp [hqa]
    rw [List.takeWhile_cons_of_neg hneg]
    simp
  | a :: t, k + 1, hk, hval, hstop => by
    have ha : q a = true := by simpa using hval 0 (by omega)
    rw [List.takeWhile_cons_of_pos ha, List.take_succ_cons,
      takeWhile_eq_take_of q t k (by simpa using hk)
        (fun i hi => by simpa using hval (i + 1) (by omega))
        (fun hlt => by simpa using hstop (by simpa using hlt))]

theorem ite_bind {α β : Type} {c : Prop} [Decidable c]
    (a b : Except PacketError α) (f : α → Except PacketError β) :
    (if c then a else b).bind f = if c then a.bind f else b.bind f := by
  split_ifs <;> rfl

theorem ok_bind {α β : Type} (a : α) (f : α → Except PacketError β) :
    (Except.ok a).bind f = f a := rfl

theorem error_bind {α β : Type} (e : PacketError) (f : α → Except PacketError β) :
    (Except.error e : Except PacketError α).bind f = .error e := rfl

theorem le_value_u16 (n : Nat) :
    Chunk.le_value (PacketUtils.put_header_field_u16 n) = n % 65536 := by
  simp [Chunk.le_value, PacketUtils.put_header_field_u16]
  omega

theorem le_value_u32 (n : Nat) :
    Chunk.le_value (PacketUtils.put_header_field_u32 n) = n % 4294967296 := by
  simp [Chunk.le_value, PacketUtils.put_header_field_u32]
  omega

theorem parse_of_too_short (buf : List Nat) (h : buf.length < 14) :
    Packet.parse buf = .error .MalformedPacket := by
  simp only [Packet.parse, Chunk.read_le, Chunk.rest, ite_bind, ok_bind,
    error_bind]
  split_ifs <;> first | rfl | omega

theorem parse_of_bad_fragment_no (buf : List Nat) (h : 14 ≤ buf.length)
    (hfrag : Chunk.le_value ((buf.drop 6).take 2) ≥
      Chunk.le_value ((buf.drop 8).take 2)) :
    Packet.parse buf = .error .MalformedPacket := by
  simp only [Packet.parse, Chunk.read_le, Chunk.rest, ite_bind, ok_bind,
    error_bind]
  rw [if_pos (by omega), if_pos (by omega), if_pos (by omega),
    if_pos (by omega), if_pos (by omega), if_pos (by omega),
    if_pos (by omega)]

theorem parse_ok_characterization (buf : List Nat) (h : 15 ≤ buf.length)
    (hfrag : Chunk.le_value ((buf.drop 6).take 2) <
      Chunk.le_value ((buf.drop 8).take 2)) :
    Packet.parse buf =
      .ok { valid := true,
            connection_id := Chunk.le_value ((buf.drop 0).take 2),
            frame_no := Chunk.le_value ((buf.drop 2).take 4),
            fragment_no := Chunk.le_value ((buf.drop 6).take 2),
            fragments_in_this_frame := Chunk.le_value ((buf.drop 8).take 2),
            time_to_next := Chunk.le_value ((buf.drop 10).take 4),
            payload := buf.drop 14 } := by
  simp only [Packet.parse, Chunk.read_le, Chunk.rest, ite_bind, ok_bind,
    error_bind]
  rw [if_pos (by omega), if_pos (by omega), if_pos (by omega),
    if_pos (by omega), if_pos (by omega), if_pos (by omega),
    if_neg (by omega),
    if_neg (by rw [List.drop_eq_nil_iff]; omega)]

/-- C7: incoming fragment parse rejection and success shape.  Parsing fails
with MalformedPacket when the buffer is too short for a header-field read
(in particular every buffer of fewer than 14 bytes, hence every 13-byte
buffer), when the declared `fragment_no` is not below the declared
`fragments_in_this_frame`, and when the payload (`buffer[14:]`) is empty
(buffer of exactly 14 bytes).  On success the fragment is valid and its
five header fields are the little-endian values at offsets 0, 2, 6, 8, 10
with widths 2, 4, 2, 2, 4, and the payload is the rest of the buffer. -/
theorem packet_parse_spec :
    (∀ buf : List Nat, buf.length < 14 →
      Packet.parse buf = .error .MalformedPacket) ∧
    (∀ buf : List Nat, 14 ≤ buf.length →
      Chunk.le_value ((buf.drop 6).take 2) ≥
        Chunk.le_value ((buf.drop 8).take 2) →
      Packet.parse buf = .error .MalformedPacket) ∧
    (∀ buf : List Nat, buf.length = 14 →
      Packet.parse buf = .error .MalformedPacket) ∧
    (∀ (buf : List Nat) (p : Packet), Packet.parse buf = .ok p →
      p.valid = true ∧
      p.connection_id = Chunk.le_value ((buf.drop 0).take 2) ∧
      p.frame_no = Chunk.le_value ((buf.drop 2).take 4) ∧
      p.fragment_no = Chunk.le_value ((buf.drop 6).take 2) ∧
      p.fragments_in_this_frame = Chunk.le_value ((buf.drop 8).take 2) ∧
      p.time_to_next = Chunk.le_value ((buf.drop 10).take 4) ∧
      p.payload = buf.drop 14) := by
  refine ⟨parse_of_too_short, parse_of_bad_fragment_no, ?_, ?_⟩
  · intro buf hlen
    by_cases hfrag : Chunk.le_value ((buf.drop 6).take 2) ≥
        Chunk.le_value ((buf.drop 8).take 2)
    · exact parse_of_bad_fragment_no buf (by omega) hfrag
    · simp only [Packet.parse, Chunk.read_le, Chunk.rest, ite_bind, ok_bind,
        error_bind]
      rw [if_pos (by omega), if_pos (by omega), if_pos (by omega),
        if_pos (by omega), if_pos (by omega), if_pos (by omega),
        if_neg (by omega),
        if_pos (by rw [List.drop_eq_nil_iff]; omega)]
  · intro buf p hp
    rcases Nat.lt_or_ge buf.length 14 with hl | hl
    · rw [parse_of_too_short buf hl] at hp
      exact Except.noConfusion hp
    by_cases hfrag : Chunk.le_value ((buf.drop 6).take 2) ≥
        Chunk.le_value ((buf.drop 8).take 2)
    · rw [parse_of_bad_fragment_no buf hl hfrag] at hp
      exact Except.noConfusion hp
    rcases Nat.lt_or_ge buf.length 15 with hl15 | hl15
    · have h14 : buf.length = 14 := by omega
      by_cases hfrag' : Chunk.le_value ((buf.drop 6).take 2) ≥
          Chunk.le_value ((buf.drop 8).take 2)
      · exact absurd hfrag' hfrag
      · simp only [Packet.parse, Chunk.read_le, Chunk.rest, ite_bind, ok_bind,
          error_bind] at hp
        rw [if_pos (by omega), if_pos (by omega), if_pos (by omega),
          if_pos (by omega), if_pos (by omega), if_pos (by omega),
          if_neg (by omega),
          if_pos (by rw [List.drop_eq_nil_iff]; omega)] at hp
        exact Except.noConfusion hp
    · rw [parse_ok_characterization buf hl15 (by omega)] at hp
      injection hp with hp
      subst hp
      exact ⟨rfl, rfl, rfl, rfl, rfl, rfl, rfl⟩

/-- Witness for C7: a 13-byte buffer is rejected; a 14-byte buffer is
rejected; a well-formed 15-byte buffer parses into the expected fragment. -/
theorem packet_parse_spec_witness :
    Packet.parse (List.replicate 13 7) = .error .MalformedPacket ∧
    Packet.parse [1, 0, 2, 0, 0, 0, 1, 0, 1, 0, 0, 0, 0, 0] =
      .error .MalformedPacket ∧
    Packet.parse [1, 0, 2, 0, 0, 0, 0, 0, 1, 0, 0, 0, 0, 0, 42] =
      .ok { valid := true, connection_id := 1, frame_no := 2, fragment_no := 0,
            fragments_in_this_frame := 1, time_to_next := 0, payload := [42] } := by
  refine ⟨packet_parse_spec.1 _ (by decide),
    (packet_parse_spec.2.1 _ (by decide) (by decide)), ?_⟩
  rw [parse_ok_characterization _ (by decide) (by decide)]
  rfl

/-- C8: header round-trip.  For every fragment whose fields fit their wire
widths and that satisfies the validity conditions
(`fragments_in_this_frame > 0`, `fragment_no < fragments_in_this_frame`,
non-empty payload), parsing its serialization returns the fragment itself;
likewise parsing the 12-byte serialization of an `AckPacket` returns an ack
with the same `connection_id`, `frame_no`, `fragment_no` and `avg_delay`. -/
theorem header_roundtrip :
    (∀ p : Packet, p.valid = true →
      p.connection_id < 65536 → p.frame_no < 4294967296 →
      p.fragment_no < 65536 → p.fragments_in_this_frame < 65536 →
      p.time_to_next < 4294967296 →
      0 < p.fragments_in_this_frame →
      p.fragment_no < p.fragments_in_this_frame →
      p.payload ≠ [] →
      Packet.parse p.to_string = .ok p) ∧
    (∀ a : AckPacket, a.connection_id < 65536 → a.frame_no < 4294967296 →
      a.fragment_no < 65536 → a.avg_delay < 4294967296 →
      AckPacket.parse a.to_string = .ok a) := by
  constructor
  · rintro ⟨v, cid, fno, fgn, fitf, ttn, pl⟩ hv h1 h2 h3 h4 h5 h6 h7 h8
    simp only at hv h1 h2 h3 h4 h5 h6 h7 h8
    subst hv
    have hlen : (Packet.to_string ⟨true, cid, fno, fgn, fitf, ttn, pl⟩).length
        = 14 + pl.length := by
      simp [Packet.to_string, PacketUtils.put_header_field_u16,
        PacketUtils.put_header_field_u32]
      omega
    have hpl : 0 < pl.length := List.length_pos.mpr h8
    have s0 : ((Packet.to_string ⟨true, cid, fno, fgn, fitf, ttn, pl⟩).drop 0).take 2
        = PacketUtils.put_header_field_u16 cid := rfl
    have s2 : ((Packet.to_string ⟨true, cid, fno, fgn, fitf, ttn, pl⟩).drop 2).take 4
        = PacketUtils.put_header_field_u32 fno := rfl
    have s6 : ((Packet.to_string ⟨true, cid, fno, fgn, fitf, ttn, pl⟩).drop 6).take 2
        = PacketUtils.put_header_field_u16 fgn := rfl
    have s8 : ((Packet.to_string ⟨true, cid, fno, fgn, fitf, ttn, pl⟩).drop 8).take 2
        = PacketUtils.put_header_field_u16 fitf := rfl
    have s10 : ((Packet.to_string ⟨true, cid, fno, fgn, fitf, ttn, pl⟩).drop 10).take 4
        = PacketUtils.put_header_field_u32 ttn := rfl
    have s14 : (Packet.to_string ⟨true, cid, fno, fgn, fitf, ttn, pl⟩).drop 14
        = pl := rfl
    rw [parse_ok_characterization _ (by omega)
      (by rw [s6, s8, le_value_u16, le_value_u16,
        Nat.mod_eq_of_lt h3, Nat.mod_eq_of_lt h4]; omega)]
    rw [s0, s2, s6, s8, s10, s14, le_value_u16, le_value_u16, le_value_u16,
      le_value_u32, le_value_u32, Nat.mod_eq_of_lt h1, Nat.mod_eq_of_lt h2,
      Nat.mod_eq_of_lt h3, Nat.mod_eq_of_lt h4, Nat.mod_eq_of_lt h5]
  · rintro ⟨cid, fno, fgn, avg⟩ h1 h2 h3 h4
    simp only at h1 h2 h3 h4
    have s0 : ((AckPacket.to_string ⟨cid, fno, fgn, avg⟩).drop 0).take 2
        = PacketUtils.put_header_field_u16 cid := rfl
    have s2 : ((AckPacket.to_string ⟨cid, fno, fgn, avg⟩).drop 2).take 4
        = PacketUtils.put_header_field_u32 fno := rfl
    have s6 : ((AckPacket.to_string ⟨cid, fno, fgn, avg⟩).drop 6).take 2
        = PacketUtils.put_header_field_u16 fgn := rfl
    have s8 : ((AckPacket.to_string ⟨cid, fno, fgn, avg⟩).drop 8).take 4
        = PacketUtils.put_header_field_u32 avg := rfl
    have hlen : (AckPacket.to_string ⟨cid, fno, fgn, avg⟩).length = 12 := by
      simp [AckPacket.to_string, PacketUtils.put_header_field_u16,
        PacketUtils.put_header_field_u32]
    simp only [AckPacket.parse, Chunk.read_le, ite_bind, ok_bind, error_bind]
    rw [if_pos (by omega), if_pos (by omega), if_pos (by omega),
      if_pos (by omega)]
    rw [s0, s2, s6, s8, le_value_u16, le_value_u16, le_value_u32, le_value_u32,
      Nat.mod_eq_of_lt h1, Nat.mod_eq_of_lt h2, Nat.mod_eq_of_lt h3,
      Nat.mod_eq_of_lt h4]

/-- Witness for C8: a concrete fragment and a concrete ack both survive the
serialize/parse round-trip. -/
theorem header_roundtrip_witness :
    Packet.parse (Packet.to_string ⟨true, 3, 70000, 1, 2, 5, [8, 9]⟩) =
      .ok ⟨true, 3, 70000, 1, 2, 5, [8, 9]⟩ ∧
    AckPacket.parse (AckPacket.to_string ⟨3, 70000, 1, 123456⟩) =
      .ok ⟨3, 70000, 1, 123456⟩ :=
  ⟨header_roundtrip.1 ⟨true, 3, 70000, 1, 2, 5, [8, 9]⟩ rfl (by decide)
      (by decide) (by decide) (by decide) (by decide) (by decide) (by decide)
      (by decide),
    header_roundtrip.2 ⟨3, 70000, 1, 123456⟩ (by decide) (by decide)
      (by decide) (by decide)⟩

theorem split_loop_getD_fragment_no (MP : Nat) (B : List Nat) (cid fno : Nat) :
    ∀ (gas idx next : Nat) (l : List Packet),
      FragmentedFrame.split_loop MP B cid fno gas idx next = some l →
      ∀ m, m < l.length → (l.getD m Packet.empty).fragment_no = idx + m := by
  intro gas
  induction gas with
  | zero =>
    intro idx next l hl m hm
    rw [FragmentedFrame.split_loop] at hl
    split_ifs at hl
    all_goals first
      | exact Option.noConfusion hl
      | (injection hl with hl; subst hl; simp at hm)
  | succ g ih =>
    intro idx next l hl m hm
    rw [FragmentedFrame.split_loop] at hl
    split_ifs at hl
    · rcases hrec : FragmentedFrame.split_loop MP B cid fno g (idx + 1)
          (Packet.outgoing MP B cid fno idx 0).2 with _ | ps
      · rw [hrec] at hl
        exact Option.noConfusion hl
      · rw [hrec] at hl
        injection hl with hl
        subst hl
        match m with
        | 0 => simp [Packet.outgoing]
        | m' + 1 =>
          rw [List.getD_cons_succ]
          have := ih (idx + 1) _ ps hrec m' (by simpa using hm)
          omega
    · injection hl with hl
      subst hl
      simp at hm

theorem set_back_ttn_length (ttn : Nat) :
    ∀ l : List Packet,
      (FragmentedFrame.set_back_time_to_next ttn l).length = l.length
  | [] => rfl
  | [_] => rfl
  | p :: q :: ps => by
    rw [FragmentedFrame.set_back_time_to_next]
    simp [set_back_ttn_length ttn (q :: ps)]

theorem set_back_ttn_getD_fragment_no (ttn : Nat) :
    ∀ (l : List Packet) (m : Nat),
      ((FragmentedFrame.set_back_time_to_next ttn l).getD m Packet.empty).fragment_no
        = (l.getD m Packet.empty).fragment_no
  | [], m => by simp [FragmentedFrame.set_back_time_to_next]
  | [p], m => by
    match m with
    | 0 => simp [FragmentedFrame.set_back_time_to_next, Packet.set_time_to_next]
    | m' + 1 => simp [FragmentedFrame.set_back_time_to_next]
  | p :: q :: ps, m => by
    match m with
    | 0 => simp [FragmentedFrame.set_back_time_to_next]
    | m' + 1 =>
      rw [FragmentedFrame.set_back_time_to_next, List.getD_cons_succ,
        List.getD_cons_succ]
      exact set_back_ttn_getD_fragment_no ttn (q :: ps) m'

theorem map_set_fitf_getD_fragment_no (x : Nat) :
    ∀ (l : List Packet) (m : Nat),
      ((l.map (fun p => p.set_fragments_in_this_frame x)).getD m
        Packet.empty).fragment_no = (l.getD m Packet.empty).fragment_no
  | [], m => by simp
  | p :: ps, m => by
    match m with
    | 0 => simp [Packet.set_fragments_in_this_frame]
    | m' + 1 =>
      rw [List.map_cons, List.getD_cons_succ, List.getD_cons_succ]
      exact map_set_fitf_getD_fragment_no x ps m'

/-- C6 (amended): `frame()` fails with IncompleteFrame exactly when
`complete()` is false, and otherwise returns the payload concatenation.
`send` fails with IncompleteFrame exactly when the *size of the fragment
vector* differs from `fragments_in_this_frame` — the guard counts slots,
not physically-built (valid) fragments, so an incoming frame with missing
fragments passes it (see the counterexample).  When the guard passes, every
fragment is serialized and transmitted in slot order, and slot order is
`fragment_no` order for every outgoing-constructed frame. -/
theorem frame_send_spec :
    (∀ ff : FragmentedFrame,
      (ff.frame = .error .IncompleteFrame ↔ ff.complete = false) ∧
      (ff.complete = true →
        ff.frame = .ok ((ff.fragments.map Packet.payload).flatten))) ∧
    (∀ ff : FragmentedFrame,
      (ff.send = .error .IncompleteFrame ↔
        ff.fragments.length ≠ ff.fragments_in_this_frame) ∧
      (ff.fragments.length = ff.fragments_in_this_frame →
        ff.send = .ok (ff.fragments.map Packet.to_string))) ∧
    (∀ (MP cid fno ttn : Nat) (B : List Nat) (ff : FragmentedFrame),
      FragmentedFrame.outgoing MP cid fno ttn B = some ff →
      ∀ m, m < ff.fragments.length →
        (ff.fragments.getD m Packet.empty).fragment_no = m) := by
  refine ⟨?_, ?_, ?_⟩
  · intro ff
    cases hc : ff.complete <;>
      simp [FragmentedFrame.frame, hc]
  · intro ff
    by_cases hls : ff.fragments.length = ff.fragments_in_this_frame <;>
      simp [FragmentedFrame.send, hls]
  · intro MP cid fno ttn B ff hff m hm
    unfold FragmentedFrame.outgoing at hff
    rcases hsl : FragmentedFrame.split_loop MP B cid fno 65536 0 0 with _ | l
    · rw [hsl] at hff
      exact Option.noConfusion hff
    rcases l with _ | ⟨f, fs⟩
    · rw [hsl] at hff
      exact Option.noConfusion hff
    rw [hsl] at hff
    injection hff with hff
    subst hff
    simp only [List.length_map, set_back_ttn_length] at hm
    simp only []
    rw [map_set_fitf_getD_fragment_no, set_back_ttn_getD_fragment_no]
    have := split_loop_getD_fragment_no MP B cid fno 65536 0 0 (f :: fs) hsl m hm
    simpa using this

/-- Witness for C6: a complete one-fragment incoming frame: `frame()`
succeeds and returns the payload, `send` passes its guard, and the
fragments of a two-fragment outgoing frame are in `fragment_no` order. -/
theorem frame_send_spec_witness :
    ((FragmentedFrame.mk 1 2 1 [Packet.mk true 1 2 0 1 0 [5]] 0).complete = true →
      (FragmentedFrame.mk 1 2 1 [Packet.mk true 1 2 0 1 0 [5]] 0).frame =
        .ok [5]) ∧
    ((FragmentedFrame.mk 1 2 1 [Packet.mk true 1 2 0 1 0 [5]] 0).fragments.length = 1 →
      (FragmentedFrame.mk 1 2 1 [Packet.mk true 1 2 0 1 0 [5]] 0).send =
        .ok [[1, 0, 2, 0, 0, 0, 0, 0, 1, 0, 0, 0, 0, 0, 5]]) ∧
    (∀ m, m < 2 →
      (((FragmentedFrame.mk 5 9 2
          [Packet.mk true 5 9 0 2 0 [1, 2], Packet.mk true 5 9 1 2 7 [3]]
          0).fragments.getD m Packet.empty).fragment_no = m)) := by
  refine ⟨fun h => (frame_send_spec.1 _).2 h, fun h => (frame_send_spec.2.1 _).2 h, ?_⟩
  intro m hm
  exact frame_send_spec.2.2 2 5 9 7 [1, 2, 3]
    (FragmentedFrame.mk 5 9 2
      [Packet.mk true 5 9 0 2 0 [1, 2], Packet.mk true 5 9 1 2 7 [3]] 0)
    (by rfl) m (by simpa using hm)

/-- Counterexample for C6 as stated: an incoming two-fragment frame founded
by its first fragment holds only one physically-built (valid) fragment,
fewer than `fragments_in_this_frame = 2`, yet `send` does *not* fail with
IncompleteFrame: the C++ guard compares `fragments_.size()` (always equal to
`fragments_in_this_frame` for an incoming frame) and never inspects slot
validity, so the incomplete frame is serialized (the empty slot as a
zeroed 14-byte header). -/
theorem send_incomplete_counterexample :
    FragmentedFrame.incoming 1 (Packet.mk true 1 2 0 2 0 [9]) =
      .ok (FragmentedFrame.mk 1 2 2
        [Packet.mk true 1 2 0 2 0 [9], Packet.empty] 1) ∧
    (FragmentedFrame.mk 1 2 2
        [Packet.mk true 1 2 0 2 0 [9], Packet.empty] 1).complete = false ∧
    (FragmentedFrame.mk 1 2 2
        [Packet.mk true 1 2 0 2 0 [9], Packet.empty] 1).fragments.countP
        (fun f => f.valid) = 1 ∧
    (FragmentedFrame.mk 1 2 2
        [Packet.mk true 1 2 0 2 0 [9], Packet.empty] 1).send ≠
      .error .IncompleteFrame := by
  refine ⟨by decide, by decide, by decide, by decide⟩

/-! ### Characterization of the outgoing constructor -/

theorem lt_ceil_imp_mul_lt {MP len idx : Nat} (hMP : 1 ≤ MP)
    (h : idx < (len + MP - 1) / MP) : MP * idx < len := by
  have h1 : (idx + 1) * MP ≤ len + MP - 1 :=
    (Nat.le_div_iff_mul_le (by omega)).mp (by omega)
  have h2 : (idx + 1) * MP = MP * idx + MP := by ring
  omega

theorem mul_lt_imp_lt_ceil {MP len idx : Nat} (hMP : 1 ≤ MP)
    (h : MP * idx < len) : idx < (len + MP - 1) / MP := by
  by_contra hc
  have h1 : (len + MP - 1) / MP < idx + 1 := by omega
  have h2 : len + MP - 1 < (idx + 1) * MP :=
    (Nat.div_lt_iff_lt_mul (by omega)).mp h1
  have h3 : (idx + 1) * MP = MP * idx + MP := by ring
  omega

theorem le_mul_imp_ceil_le {MP len idx : Nat} (hMP : 1 ≤ MP)
    (h : len ≤ MP * idx) : (len + MP - 1) / MP ≤ idx := by
  by_contra hc
  have := lt_ceil_imp_mul_lt hMP (show idx < (len + MP - 1) / MP by omega)
  omega

theorem len_le_mul_ceil {MP len : Nat} (hMP : 1 ≤ MP) :
    len ≤ MP * ((len + MP - 1) / MP) := by
  by_contra hc
  have := mul_lt_imp_lt_ceil hMP (show MP * ((len + MP - 1) / MP) < len by omega)
  omega

/-- Slice number `j` of the outgoing splitting loop (before the total
fragment count is known). -/
def out_slice (MP : Nat) (B : List Nat) (cid fno j : Nat) : Packet :=
  (Packet.outgoing MP B cid fno j 0).1

/-- Fragment `j` of a finished outgoing `FragmentedFrame` that splits `B`
into `cnt` fragments: same slice, with `fragments_in_this_frame` filled in
(narrowed to `uint16_t`) and `time_to_next` set on the last fragment. -/
def out_frag (MP : Nat) (B : List Nat) (cid fno ttn cnt j : Nat) : Packet :=
  { valid := true, connection_id := cid, frame_no := fno, fragment_no := j,
    fragments_in_this_frame := cnt % 65536,
    time_to_next := if j = cnt - 1 then ttn else 0,
    payload := (B.drop (MP * j)).take (min (B.length - MP * j) MP) }

theorem split_loop_done (MP : Nat) (B : List Nat) (cid fno gas idx next : Nat)
    (h : ¬next < B.length) :
    FragmentedFrame.split_loop MP B cid fno gas idx next = some [] := by
  cases gas <;> rw [FragmentedFrame.split_loop] <;> rw [if_neg h]

theorem split_loop_eq (MP : Nat) (B : List Nat) (cid fno : Nat)
    (hMP : 1 ≤ MP) :
    ∀ gas idx, (B.length + MP - 1) / MP - idx ≤ gas →
      FragmentedFrame.split_loop MP B cid fno gas idx (MP * idx) =
        some ((List.range' idx ((B.length + MP - 1) / MP - idx)).map
          (out_slice MP B cid fno)) := by
  intro gas
  induction gas with
  | zero =>
    intro idx hle
    rw [FragmentedFrame.split_loop]
    rw [if_neg ?_]
    · rw [show (B.length + MP - 1) / MP - idx = 0 from by omega]
      rfl
    · intro hlt
      have := mul_lt_imp_lt_ceil hMP hlt
      omega
  | succ g ih =>
    intro idx hle
    by_cases hlt : MP * idx < B.length
    · have hidx : idx < (B.length + MP - 1) / MP := mul_lt_imp_lt_ceil hMP hlt
      rw [FragmentedFrame.split_loop, if_pos hlt]
      by_cases hlast : B.length - MP * idx ≤ MP
      · have hnext : (Packet.outgoing MP B cid fno idx 0).2 = B.length := by
          simp [Packet.outgoing]
          omega
        have hcnt1 : (B.length + MP - 1) / MP = idx + 1 := by
          have hub : (B.length + MP - 1) / MP ≤ idx + 1 :=
            le_mul_imp_ceil_le hMP (by rw [Nat.mul_succ]; omega)
          omega
        rw [hnext]
        rw [split_loop_done MP B cid fno g (idx + 1) B.length (by omega)]
        rw [hcnt1]
        rw [show idx + 1 - idx = 1 from by omega]
        rfl
      · have hnext : (Packet.outgoing MP B cid fno idx 0).2 = MP * (idx + 1) := by
          simp [Packet.outgoing, Nat.mul_succ]
          omega
        rw [hnext, ih (idx + 1) (by omega)]
        rw [show (B.length + MP - 1) / MP - idx
            = ((B.length + MP - 1) / MP - (idx + 1)) + 1 from by omega]
        rw [List.range'_succ]
        rfl
    · rw [FragmentedFrame.split_loop, if_neg hlt]
      rw [show (B.length + MP - 1) / MP - idx = 0 from by
        have := le_mul_imp_ceil_le hMP (show B.length ≤ MP * idx by omega)
        omega]
      rfl

theorem split_loop_none (MP : Nat) (B : List Nat) (cid fno : Nat) :
    ∀ gas idx next, next < B.length → MP * (idx + gas) < B.length →
      FragmentedFrame.split_loop MP B cid fno gas idx next = none := by
  intro gas
  induction gas with
  | zero =>
    intro idx next h1 _
    rw [FragmentedFrame.split_loop, if_pos h1]
  | succ g ih =>
    intro idx next h1 h2
    rw [FragmentedFrame.split_loop, if_pos h1]
    have hmono : MP * (idx + 1) ≤ MP * (idx + (g + 1)) :=
      Nat.mul_le_mul_left MP (by omega)
    have hnext : (Packet.outgoing MP B cid fno idx 0).2 < B.length := by
      have : (Packet.outgoing MP B cid fno idx 0).2 = MP * idx +
          min (B.length - MP * idx) MP := rfl
      have hexp : MP * (idx + 1) = MP * idx + MP := by ring
      omega
    rw [ih (idx + 1) _ hnext (by
      rw [show idx + 1 + g = idx + (g + 1) from by omega]
      exact h2)]

theorem set_back_ttn_append (ttn : Nat) :
    ∀ (xs : List Packet) (x : Packet),
      FragmentedFrame.set_back_time_to_next ttn (xs ++ [x])
        = xs ++ [x.set_time_to_next ttn]
  | [], x => rfl
  | a :: xs, x => by
    rcases hxe : xs ++ [x] with _ | ⟨q, ps⟩
    · exact absurd hxe (by simp)
    · rw [List.cons_append, hxe, FragmentedFrame.set_back_time_to_next, ← hxe,
        set_back_ttn_append ttn xs x, List.cons_append]

/-- Full characterization of the outgoing `FragmentedFrame` constructor for
buffers whose fragment count fits the `uint16_t` loop counter. -/
theorem outgoing_eq (MP cid fno ttn : Nat) (B : List Nat) (hMP : 1 ≤ MP)
    (hB : B ≠ []) (hcnt : (B.length + MP - 1) / MP ≤ 65536) :
    FragmentedFrame.outgoing MP cid fno ttn B =
      some { connection_id := cid, frame_no := fno,
             fragments_in_this_frame := ((B.length + MP - 1) / MP) % 65536,
             fragments := (List.range ((B.length + MP - 1) / MP)).map
               (out_frag MP B cid fno ttn ((B.length + MP - 1) / MP)),
             remaining_fragments := 0 } := by
  have hlen : 0 < B.length := List.length_pos.mpr hB
  have hcpos : 0 < (B.length + MP - 1) / MP :=
    mul_lt_imp_lt_ceil hMP (by omega)
  have hsl := split_loop_eq MP B cid fno hMP 65536 0 (by omega)
  rw [Nat.mul_zero, Nat.sub_zero, ← List.range_eq_range'] at hsl
  have hfrags : ∀ n, (B.length + MP - 1) / MP = n + 1 →
      (FragmentedFrame.set_back_time_to_next ttn
          ((List.range ((B.length + MP - 1) / MP)).map
            (out_slice MP B cid fno))).map
        (fun p => p.set_fragments_in_this_frame ((B.length + MP - 1) / MP))
      = (List.range ((B.length + MP - 1) / MP)).map
          (out_frag MP B cid fno ttn ((B.length + MP - 1) / MP)) := by
    intro n hn
    rw [hn, List.range_succ, List.map_append, List.map_singleton,
      set_back_ttn_append, List.map_append, List.map_append,
      List.map_singleton, List.map_singleton]
    congr 1
    · rw [List.map_map]
      apply List.map_congr_left
      intro j hj
      rw [List.mem_range] at hj
      simp only [Function.comp, out_slice, Packet.outgoing,
        Packet.set_fragments_in_this_frame, out_frag]
      rw [if_neg (by omega)]
    · simp only [List.map_cons, List.map_nil, out_slice, Packet.outgoing,
        Packet.set_time_to_next, Packet.set_fragments_in_this_frame, out_frag]
      rw [if_pos (by omega)]
  unfold FragmentedFrame.outgoing
  rw [hsl]
  rcases hshape : (List.range ((B.length + MP - 1) / MP)).map
      (out_slice MP B cid fno) with _ | ⟨f, fs⟩
  · exfalso
    have hl2 : ((List.range ((B.length + MP - 1) / MP)).map
        (out_slice MP B cid fno)).length = (B.length + MP - 1) / MP := by simp
    rw [hshape] at hl2
    simp at hl2
    omega
  have hlistlen : (f :: fs).length = (B.length + MP - 1) / MP := by
    rw [← hshape]; simp
  simp only []
  rw [hlistlen, ← hshape, hfrags ((B.length + MP - 1) / MP - 1) (by omega)]

theorem getD_range_map (f : Nat → Packet) {n j : Nat} (h : j < n) :
    ((List.range n).map f).getD j Packet.empty = f j := by
  rw [List.getD_eq_getElem _ _ (by simpa using h)]
  simp

/-- Concatenating the `n` payload chunks of `B` (cap `MP`) recovers `B`. -/
theorem join_chunks (MP : Nat) (hMP : 1 ≤ MP) :
    ∀ (n : Nat) (B : List Nat), B.length ≤ MP * n →
      ((List.range n).map fun j => (B.drop (MP * j)).take
        (min (B.length - MP * j) MP)).flatten = B := by
  intro n
  induction n with
  | zero =>
    intro B hB
    have hnil : B = [] := List.eq_nil_of_length_eq_zero (by omega)
    subst hnil
    simp
  | succ n ih =>
    intro B hB
    rw [List.range_succ_eq_map, List.map_cons, List.flatten_cons, List.map_map]
    have heq : ∀ j ∈ List.range n,
        ((fun j => (B.drop (MP * j)).take (min (B.length - MP * j) MP)) ∘
          Nat.succ) j
        = (fun j => ((B.drop MP).drop (MP * j)).take
            (min ((B.drop MP).length - MP * j) MP)) j := by
      intro j _
      simp only [Function.comp, Nat.mul_succ, List.drop_drop, List.length_drop]
      congr 1
      · omega
      · congr 1
        omega
    rw [List.map_congr_left heq]
    have hmul : MP * (n + 1) = MP * n + MP := by ring
    rw [ih (B.drop MP) (by rw [List.length_drop]; omega)]
    have hhead : (B.drop (MP * 0)).take (min (B.length - MP * 0) MP)
        = B.take MP := by
      rw [Nat.mul_zero, List.drop_zero, Nat.sub_zero]
      rcases Nat.le_total B.length MP with h | h
      · rw [Nat.min_eq_left h, List.take_of_length_le (Nat.le_refl _),
          List.take_of_length_le h]
      · rw [Nat.min_eq_right h]
    rw [hhead, List.take_append_drop]

/-- C2 (amended): for every non-empty `B` and cap `C ≥ 1` with
`ceil(len(B)/C) ≤ 2 ^ 16` (so that the `uint16_t` loop counter of the
splitting loop does not wrap), the outgoing construction produces exactly
`ceil(len(B)/C)` fragments, the last fragment's payload length is
`len(B) - (count-1)*C`, and no fragment's payload is empty. -/
theorem fragment_count_spec (MP cid fno ttn : Nat) (B : List Nat)
    (hB : B ≠ []) (hMP : 1 ≤ MP)
    (hcnt : (B.length + MP - 1) / MP ≤ 65536) :
    ∃ ff, FragmentedFrame.outgoing MP cid fno ttn B = some ff ∧
      ff.fragments.length = (B.length + MP - 1) / MP ∧
      (ff.fragments.getD (ff.fragments.length - 1) Packet.empty).payload.length
        = B.length - ((B.length + MP - 1) / MP - 1) * MP ∧
      ∀ f ∈ ff.fragments, f.payload ≠ [] := by
  have hlen : 0 < B.length := List.length_pos.mpr hB
  have hcpos : 0 < (B.length + MP - 1) / MP :=
    mul_lt_imp_lt_ceil hMP (by omega)
  refine ⟨_, outgoing_eq MP cid fno ttn B hMP hB hcnt, by simp, ?_, ?_⟩
  · obtain ⟨m, hm⟩ : ∃ m, (B.length + MP - 1) / MP = m + 1 :=
      ⟨(B.length + MP - 1) / MP - 1, by omega⟩
    have hub : B.length ≤ MP * ((B.length + MP - 1) / MP) := len_le_mul_ceil hMP
    have hlb : MP * ((B.length + MP - 1) / MP - 1) < B.length :=
      lt_ceil_imp_mul_lt hMP (by omega)
    simp only [List.length_map, List.length_range]
    rw [getD_range_map _ (show (B.length + MP - 1) / MP - 1
      < (B.length + MP - 1) / MP by omega)]
    simp only [out_frag, List.length_take, List.length_drop]
    rw [hm] at hub hlb ⊢
    simp only [Nat.add_sub_cancel] at hlb ⊢
    have he1 : MP * (m + 1) = MP * m + MP := by ring
    have he3 : m * MP = MP * m := by ring
    omega
  · intro f hf
    simp only [List.mem_map, List.mem_range] at hf
    obtain ⟨j, hj, rfl⟩ := hf
    have hjlt : MP * j < B.length := lt_ceil_imp_mul_lt hMP hj
    apply List.length_pos.mp
    simp only [out_frag, List.length_take, List.length_drop]
    omega

/-- Witness for C2: `B = [1,2,3]`, `C = 2` produces 2 fragments, the last of
payload length 1, none empty. -/
theorem fragment_count_spec_witness :
    ∃ ff, FragmentedFrame.outgoing 2 5 9 7 [1, 2, 3] = some ff ∧
      ff.fragments.length = 2 ∧
      (ff.fragments.getD (ff.fragments.length - 1) Packet.empty).payload.length
        = 1 ∧
      ∀ f ∈ ff.fragments, f.payload ≠ [] :=
  fragment_count_spec 2 5 9 7 [1, 2, 3] (by decide) (by decide) (by decide)

theorem outgoing_none_of_split_none (MP cid fno ttn : Nat) (B : List Nat)
    (h : FragmentedFrame.split_loop MP B cid fno 65536 0 0 = none) :
    FragmentedFrame.outgoing MP cid fno ttn B = none := by
  unfold FragmentedFrame.outgoing
  rw [h]

/-- Counterexample for C2 as stated: with cap `C = 1` and a 65537-byte
buffer the claim demands 65537 fragments, but the `uint16_t` loop counter
`fragment_no` wraps after 65536 slices, making the C++ splitting loop
restart from offset 0 and never terminate: no fragment sequence is ever
produced (modelled as `none`). -/
theorem fragment_count_counterexample :
    FragmentedFrame.outgoing 1 0 0 0 (List.replicate 65537 0) = none :=
  outgoing_none_of_split_none 1 0 0 0 (List.replicate 65537 0)
    (split_loop_none 1 (List.replicate 65537 0) 0 0 65536 0 0
      (by rw [List.length_replicate]; omega)
      (by rw [List.length_replicate]; omega))

/-! ### Reassembly of a family of matching fragments -/

/-- A family of `N` well-formed fragments of one frame: fragment `j` is
valid, carries the frame's identity, declares `N` total fragments and has
`fragment_no = j`. -/
def GoodFam (cid fno N : Nat) (good : Nat → Packet) : Prop :=
  ∀ j, j < N → (good j).valid = true ∧ (good j).connection_id = cid ∧
    (good j).frame_no = fno ∧ (good j).fragments_in_this_frame = N ∧
    (good j).fragment_no = j

/-- Invariant of an incoming frame being reassembled from the family
`good`: fixed identity, `N` slots, every slot either still empty or holding
its own fragment, and `remaining_fragments` equal to the number of invalid
slots. -/
def ReasmInv (cid fno N : Nat) (good : Nat → Packet)
    (ff : FragmentedFrame) : Prop :=
  ff.connection_id = cid ∧ ff.frame_no = fno ∧
  ff.fragments_in_this_frame = N ∧ ff.fragments.length = N ∧
  (∀ j, j < N → ff.fragments.getD j Packet.empty = good j ∨
    ff.fragments.getD j Packet.empty = Packet.empty) ∧
  ff.remaining_fragments = ff.fragments.countP (fun f => !f.valid)

theorem countP_invalid_set :
    ∀ (l : List Packet) (j : Nat), j < l.length →
      (l.getD j Packet.empty).valid = false →
      ∀ p : Packet, p.valid = true →
        (l.set j p).countP (fun f => !f.valid) + 1
          = l.countP (fun f => !f.valid)
  | [], j, hj, _, _, _ => by simp at hj
  | a :: t, 0, _, hslot, p, hp => by
    rw [List.getD_cons_zero] at hslot
    rw [List.set_cons_zero, List.countP_cons, List.countP_cons]
    simp [hslot, hp]
  | a :: t, j + 1, hj, hslot, p, hp => by
    rw [List.getD_cons_succ] at hslot
    rw [List.set_cons_succ, List.countP_cons, List.countP_cons]
    have := countP_invalid_set t j (by simpa using hj) hslot p hp
    omega

theorem countP_invalid_replicate (n : Nat) :
    (List.replicate n Packet.empty).countP (fun f => !f.valid) = n := by
  induction n with
  | zero => rfl
  | succ n ih =>
    rw [List.replicate_succ, List.countP_cons, ih]
    norm_num [Packet.empty]

theorem add_packet_good (cid fno N : Nat) (good : Nat → Packet)
    (hgf : GoodFam cid fno N good) (ff : FragmentedFrame)
    (hinv : ReasmInv cid fno N good ff) (j : Nat) (hj : j < N) :
    ∃ ff', ff.add_packet (good j) = .ok ff' ∧ ReasmInv cid fno N good ff' ∧
      (∀ i, i < N → (ff'.fragments.getD i Packet.empty = good i ↔
        (ff.fragments.getD i Packet.empty = good i ∨ i = j))) := by
  obtain ⟨hcid, hfno, hfitf, hlen, hdich, hrem⟩ := hinv
  obtain ⟨hgv, hgc, hgn, hgff, hgno⟩ := hgf j hj
  have hs : ff.sanity_check (good j) = .ok () :=
    (sanity_check_ok_iff ff (good j)).mpr
      ⟨by rw [hgc, hcid], by rw [hgff, hfitf], by rw [hgn, hfno],
        by rw [hgno, hfitf]; exact hj⟩
  rcases hdich j hj with hgood | hempty
  · have hvalid : (ff.fragments.getD ((good j).fragment_no)
        Packet.empty).valid = true := by
      rw [hgno, hgood]; exact hgv
    refine ⟨ff, ?_, ⟨hcid, hfno, hfitf, hlen, hdich, hrem⟩, ?_⟩
    · simp only [FragmentedFrame.add_packet, hs]
      rw [if_pos hvalid]
    · intro i hi
      constructor
      · exact fun h => Or.inl h
      · rintro (h | rfl)
        · exact h
        · exact hgood
  · have hvalid : ¬(ff.fragments.getD ((good j).fragment_no)
        Packet.empty).valid = true := by
      rw [hgno, hempty]
      simp [Packet.empty]
    have hjlen : j < ff.fragments.length := by omega
    have hseteq : ff.fragments.set ((good j).fragment_no) (good j)
        = ff.fragments.set j (good j) := by rw [hgno]
    have hemptyvalid : (ff.fragments.getD j Packet.empty).valid = false := by
      rw [hempty]; rfl
    refine ⟨{ ff with
      remaining_fragments := ff.remaining_fragments - 1,
      fragments := ff.fragments.set ((good j).fragment_no) (good j) },
      ?_, ?_, ?_⟩
    · simp only [FragmentedFrame.add_packet, hs]
      rw [if_neg hvalid]
    · refine ⟨hcid, hfno, hfitf, by simpa using hlen, ?_, ?_⟩
      · intro i hi
        rw [hseteq]
        by_cases hij : i = j
        · subst hij
          rw [getD_set_self hjlen]
          exact Or.inl rfl
        · rw [getD_set_ne (fun h => hij h.symm)]
          exact hdich i hi
      · have hc := countP_invalid_set ff.fragments j hjlen hemptyvalid
          (good j) hgv
        simp only [hseteq]
        omega
    · intro i hi
      simp only [hseteq]
      by_cases hij : i = j
      · subst hij
        rw [getD_set_self hjlen]
        simp
      · rw [getD_set_ne (fun h => hij h.symm)]
        constructor
        · exact fun h => Or.inl h
        · rintro (h | rfl)
          · exact h
          · exact absurd rfl hij

theorem add_all_good (cid fno N : Nat) (good : Nat → Packet)
    (hgf : GoodFam cid fno N good) :
    ∀ (L : List Packet) (ff : FragmentedFrame),
      (∀ p ∈ L, ∃ j, j < N ∧ p = good j) →
      ReasmInv cid fno N good ff →
      ∃ ff', ff.add_all L = .ok ff' ∧ ReasmInv cid fno N good ff' ∧
        ∀ i, i < N → (ff'.fragments.getD i Packet.empty = good i ↔
          (ff.fragments.getD i Packet.empty = good i ∨ good i ∈ L)) := by
  intro L
  induction L with
  | nil =>
    intro ff _ hinv
    refine ⟨ff, rfl, hinv, ?_⟩
    intro i _
    simp
  | cons p L ih =>
    intro ff hmem hinv
    obtain ⟨j, hj, rfl⟩ := hmem p (by simp)
    obtain ⟨ff1, hadd, hinv1, hiff1⟩ :=
      add_packet_good cid fno N good hgf ff hinv j hj
    obtain ⟨ff2, hall, hinv2, hiff2⟩ :=
      ih ff1 (fun q hq => hmem q (by simp [hq])) hinv1
    refine ⟨ff2, ?_, hinv2, ?_⟩
    · rw [FragmentedFrame.add_all, hadd]
      exact hall
    · intro i hi
      have hinj : good i = good j ↔ i = j := by
        constructor
        · intro h
          have h1 := (hgf i hi).2.2.2.2
          have h2 := (hgf j hj).2.2.2.2
          rw [← h1, h, h2]
        · intro h
          rw [h]
      rw [hiff2 i hi, hiff1 i hi, List.mem_cons]
      rw [hinj]
      tauto

theorem incoming_good (cid fno N : Nat) (good : Nat → Packet)
    (hgf : GoodFam cid fno N good) (j : Nat) (hj : j < N) :
    ∃ ff1, FragmentedFrame.incoming cid (good j) = .ok ff1 ∧
      ReasmInv cid fno N good ff1 ∧
      ∀ i, i < N → (ff1.fragments.getD i Packet.empty = good i ↔ i = j) := by
  obtain ⟨hgv, hgc, hgn, hgff, hgno⟩ := hgf j hj
  have hinv0 : ReasmInv cid fno N good
      { connection_id := cid, frame_no := (good j).frame_no,
        fragments_in_this_frame := (good j).fragments_in_this_frame,
        fragments := List.replicate (good j).fragments_in_this_frame
          Packet.empty,
        remaining_fragments := (good j).fragments_in_this_frame } := by
    refine ⟨rfl, hgn, hgff, by rw [List.length_replicate, hgff], ?_, ?_⟩
    · intro i hi
      exact Or.inr (getD_replicate (by rw [hgff]; exact hi) Packet.empty)
    · simp only [countP_invalid_replicate]
  have hs : FragmentedFrame.sanity_check
      { connection_id := cid, frame_no := (good j).frame_no,
        fragments_in_this_frame := (good j).fragments_in_this_frame,
        fragments := List.replicate (good j).fragments_in_this_frame
          Packet.empty,
        remaining_fragments := (good j).fragments_in_this_frame }
      (good j) = .ok () :=
    (sanity_check_ok_iff _ _).mpr ⟨hgc, rfl, rfl, by rw [hgno, hgff]; exact hj⟩
  obtain ⟨ff1, hadd, hinv1, hiff1⟩ :=
    add_packet_good cid fno N good hgf _ hinv0 j hj
  refine ⟨ff1, ?_, hinv1, ?_⟩
  · simp only [FragmentedFrame.incoming, hs]
    exact hadd
  · intro i hi
    rw [hiff1 i hi]
    have hne : ¬(List.replicate (good j).fragments_in_this_frame
        Packet.empty).getD i Packet.empty = good i := by
      rw [getD_replicate (by rw [hgff]; exact hi) Packet.empty]
      intro h
      have := (hgf i hi).1
      rw [← h] at this
      simp [Packet.empty] at this
    constructor
    · rintro (h | h)
      · exact absurd h hne
      · exact h
    · intro h
      exact Or.inr h

/-- C1 (amended): split/reassemble round-trip.  For every non-empty buffer
`B` and payload cap `C ≥ 1` with `ceil(len(B)/C) ≤ 65535` (so the fragment
count fits the `uint16_t` header field and loop counter), constructing an
outgoing `FragmentedFrame` from `B` and feeding its fragments, in any
permutation, into a fresh incoming `FragmentedFrame` — founded by the
first-arriving fragment, then `add_packet` for the rest — succeeds, and the
resulting frame satisfies `complete() = true` and `frame() = B`. -/
theorem split_reassemble_roundtrip (MP cid fno ttn : Nat) (B : List Nat)
    (hB : B ≠ []) (hMP : 1 ≤ MP)
    (hcnt : (B.length + MP - 1) / MP ≤ 65535)
    (ff : FragmentedFrame)
    (hff : FragmentedFrame.outgoing MP cid fno ttn B = some ff)
    (p : Packet) (rest : List Packet)
    (hperm : (p :: rest).Perm ff.fragments) :
    ∃ ff1 ff2, FragmentedFrame.incoming cid p = .ok ff1 ∧
      ff1.add_all rest = .ok ff2 ∧
      ff2.complete = true ∧ ff2.frame = .ok B := by
  have hlenle : B.length ≤ MP * ((B.length + MP - 1) / MP) :=
    len_le_mul_ceil hMP
  rw [outgoing_eq MP cid fno ttn B hMP hB (by omega)] at hff
  injection hff with hff
  subst hff
  simp only [] at hperm
  set N := (B.length + MP - 1) / MP with hNdef
  set good := out_frag MP B cid fno ttn N with hgooddef
  have hmod : N % 65536 = N := Nat.mod_eq_of_lt (by omega)
  have hgf : GoodFam cid fno N good := by
    intro j hj
    refine ⟨rfl, rfl, rfl, ?_, rfl⟩
    show N % 65536 = N
    exact hmod
  have hpmem : p ∈ (List.range N).map good :=
    (hperm.mem_iff).mp (List.mem_cons_self p rest)
  obtain ⟨j0, hj0, hpj⟩ : ∃ j0, j0 < N ∧ p = good j0 := by
    simp only [List.mem_map, List.mem_range] at hpmem
    obtain ⟨j0, h1, h2⟩ := hpmem
    exact ⟨j0, h1, h2.symm⟩
  subst hpj
  obtain ⟨ff1, hinc, hinv1, hiff1⟩ := incoming_good cid fno N good hgf j0 hj0
  have hrest : ∀ q ∈ rest, ∃ j, j < N ∧ q = good j := by
    intro q hq
    have hqm : q ∈ (List.range N).map good :=
      (hperm.mem_iff).mp (by simp [hq])
    simp only [List.mem_map, List.mem_range] at hqm
    obtain ⟨j, h1, h2⟩ := hqm
    exact ⟨j, h1, h2.symm⟩
  obtain ⟨ff2, hall, hinv2, hiff2⟩ :=
    add_all_good cid fno N good hgf rest ff1 hrest hinv1
  have hcover : ∀ i, i < N → ff2.fragments.getD i Packet.empty = good i := by
    intro i hi
    rw [hiff2 i hi]
    have hmemi : good i ∈ good j0 :: rest :=
      (hperm.mem_iff).mpr (by
        simp only [List.mem_map, List.mem_range]
        exact ⟨i, hi, rfl⟩)
    rcases List.mem_cons.mp hmemi with he | hin
    · left
      rw [hiff1 i hi]
      have h1 := (hgf i hi).2.2.2.2
      have h2 := (hgf j0 hj0).2.2.2.2
      rw [← h1, he, h2]
    · right
      exact hin
  obtain ⟨hcid2, hfno2, hfitf2, hlen2, hdich2, hrem2⟩ := hinv2
  have hfragseq : ff2.fragments = (List.range N).map good := by
    apply List.ext_getElem (by simp [hlen2])
    intro i h1 h2
    have hiN : i < N := by rw [hlen2] at h1; exact h1
    rw [← List.getD_eq_getElem ff2.fragments Packet.empty h1, hcover i hiN]
    simp
  have hrm0 : ff2.remaining_fragments = 0 := by
    rw [hrem2, hfragseq]
    apply List.countP_eq_zero.mpr
    intro f hf
    simp only [List.mem_map, List.mem_range] at hf
    obtain ⟨j, hjr, rfl⟩ := hf
    have := (hgf j hjr).1
    simp [this]
  have hcomp : ff2.complete = true := by
    simp [FragmentedFrame.complete, hrm0]
  refine ⟨ff1, ff2, hinc, hall, hcomp, ?_⟩
  rw [FragmentedFrame.frame, if_pos (by rw [hcomp])]
  rw [hfragseq, List.map_map]
  have hpay : Packet.payload ∘ good
      = fun j => (B.drop (MP * j)).take (min (B.length - MP * j) MP) := rfl
  rw [hpay, join_chunks MP hMP N B hlenle]

/-- Witness for C1: `B = [1,2,3]`, `C = 2`; the two fragments arrive in the
order `[fragment 1, fragment 0]` and reassemble into `B`. -/
theorem split_reassemble_roundtrip_witness :
    ∃ ff1 ff2,
      FragmentedFrame.incoming 5 (Packet.mk true 5 9 1 2 7 [3]) = .ok ff1 ∧
      ff1.add_all [Packet.mk true 5 9 0 2 0 [1, 2]] = .ok ff2 ∧
      ff2.complete = true ∧ ff2.frame = .ok [1, 2, 3] :=
  split_reassemble_roundtrip 2 5 9 7 [1, 2, 3] (by decide) (by decide)
    (by decide)
    (FragmentedFrame.mk 5 9 2
      [Packet.mk true 5 9 0 2 0 [1, 2], Packet.mk true 5 9 1 2 7 [3]] 0)
    (by rfl)
    (Packet.mk true 5 9 1 2 7 [3]) [Packet.mk true 5 9 0 2 0 [1, 2]]
    (List.Perm.swap (Packet.mk true 5 9 0 2 0 [1, 2])
      (Packet.mk true 5 9 1 2 7 [3]) [])

theorem incoming_fragment_no_oob (cid : Nat) (p : Packet)
    (hcid : p.connection_id = cid)
    (hfn : p.fragments_in_this_frame ≤ p.fragment_no) :
    FragmentedFrame.incoming cid p = .error .ProtocolMismatch := by
  have hs : FragmentedFrame.sanity_check
      { connection_id := cid, frame_no := p.frame_no,
        fragments_in_this_frame := p.fragments_in_this_frame,
        fragments := List.replicate p.fragments_in_this_frame Packet.empty,
        remaining_fragments := p.fragments_in_this_frame } p
      = .error .ProtocolMismatch := by
    unfold FragmentedFrame.sanity_check
    rw [if_neg (by simp [hcid]), if_neg (by simp), if_neg (by simp),
      if_pos (by simpa using hfn)]
  simp only [FragmentedFrame.incoming, hs]

/-- Counterexample for C1 as stated: with cap `C = 1` and a 65536-byte
buffer, splitting succeeds with 65536 fragments, but
`fragments_in_this_frame_` is a `uint16_t`, so `65536` is stored as `0` in
every fragment header; founding a fresh incoming frame with the
first-arriving fragment then fails its own sanity check
(`fragment_no >= fragments_in_this_frame`, i.e. `0 >= 0`) with
ProtocolMismatch, and the round-trip never completes. -/
theorem split_reassemble_counterexample :
    ¬∃ (ff ff1 ff2 : FragmentedFrame),
      FragmentedFrame.outgoing 1 0 0 0 (List.replicate 65536 0) = some ff ∧
      FragmentedFrame.incoming 0 (ff.fragments.headD Packet.empty) = .ok ff1 ∧
      ff1.add_all ff.fragments.tail = .ok ff2 ∧
      ff2.complete = true ∧
      ff2.frame = .ok (List.replicate 65536 0) := by
  rintro ⟨ff, ff1, ff2, hff, hinc, -, -, -⟩
  rw [outgoing_eq 1 0 0 0 (List.replicate 65536 0) (by omega)
    (List.length_pos.mp (by rw [List.length_replicate]; omega))
    (by rw [List.length_replicate])] at hff
  injection hff with hff
  subst hff
  simp only [] at hinc
  rw [show ((List.replicate 65536 (0 : Nat)).length + 1 - 1) / 1 = 65536 from
    by rw [List.length_replicate]] at hinc
  rw [show (List.range 65536).map
        (out_frag 1 (List.replicate 65536 0) 0 0 0 65536)
      = out_frag 1 (List.replicate 65536 0) 0 0 0 65536 0 ::
        ((List.range 65535).map Nat.succ).map
          (out_frag 1 (List.replicate 65536 0) 0 0 0 65536) from by
    rw [show (65536 : Nat) = 65535 + 1 from rfl, List.range_succ_eq_map,
      List.map_cons]] at hinc
  rw [List.headD_cons] at hinc
  rw [incoming_fragment_no_oob 0 _ rfl (by
    show (65536 : Nat) % 65536 ≤ 0
    decide)] at hinc
  exact Except.noConfusion hinc

/-! ### Claims C3, C4, C5, C10 -/

/-- C3: partial-prefix law.  If the first `k` slots of a `FragmentedFrame`
are valid and (when slot `k` exists) slot `k` is invalid — no matter which
higher-indexed slots are filled — `partial_frame()` returns exactly the
concatenation of the payloads of slots `0 .. k-1`.  With `k = 0` (slot 0
invalid) this returns the empty byte string. -/
theorem partial_frame_prefix (ff : FragmentedFrame) (k : Nat)
    (hk : k ≤ ff.fragments.length)
    (hval : ∀ i, i < k → (ff.fragments.getD i Packet.empty).valid = true)
    (hstop : ∀ _ : k < ff.fragments.length,
      (ff.fragments.getD k Packet.empty).valid = false) :
    ff.partial_frame = ((ff.fragments.take k).map Packet.payload).flatten := by
  unfold FragmentedFrame.partial_frame
  rw [takeWhile_eq_take_of _ _ k hk hval hstop]

/-- Witness for C3: a three-slot frame whose slots 0 and 2 are valid and
slot 1 is empty; `partial_frame` returns exactly payload 0. -/
theorem partial_frame_prefix_witness :
    (FragmentedFrame.mk 1 2 3
        [Packet.mk true 1 2 0 3 0 [10, 11], Packet.empty,
         Packet.mk true 1 2 2 3 0 [30]] 1).partial_frame = [10, 11] :=
  partial_frame_prefix _ 1 (by decide) (by decide) (fun _ => by decide)

/-- C4: mismatch rejection.  A packet whose `connection_id`,
`fragments_in_this_frame` or `frame_no` differs from the frame's is rejected
by `add_packet` with a ProtocolMismatch error.  In the C++, `sanity_check`
throws before any member is written, so the frame is unchanged on this path;
the functional embedding mirrors that order: the error is returned before
the slot array or `remaining_fragments` is touched. -/
theorem add_packet_mismatch (ff : FragmentedFrame) (p : Packet)
    (h : p.connection_id ≠ ff.connection_id ∨
      p.fragments_in_this_frame ≠ ff.fragments_in_this_frame ∨
      p.frame_no ≠ ff.frame_no) :
    ff.add_packet p = .error .ProtocolMismatch := by
  simp only [FragmentedFrame.add_packet, FragmentedFrame.sanity_check]
  split_ifs with h1 h2 h3 h4 <;> first
    | rfl
    | (exfalso; tauto)

/-- Witness for C4: a frame with identity (1, 2, 1) rejects a packet with
`frame_no` 9. -/
theorem add_packet_mismatch_witness :
    (FragmentedFrame.mk 1 2 1 [Packet.empty] 1).add_packet
        (Packet.mk true 1 9 0 1 0 [5]) = .error .ProtocolMismatch :=
  add_packet_mismatch _ _ (by decide)

/-- C10: first-write-wins on conflicting duplicates.  If a packet passes the
sanity check but its target slot is already valid, `add_packet` returns the
frame unchanged — the stored payload survives and the later packet is
discarded with no error, even when its payload differs from the stored
one (the statement quantifies over every such packet `p`, so in particular
over packets whose payload differs from the stored slot's). -/
theorem add_packet_duplicate_slot (ff : FragmentedFrame) (p : Packet)
    (hs : ff.sanity_check p = .ok ())
    (hvalid : (ff.fragments.getD p.fragment_no Packet.empty).valid = true) :
    ff.add_packet p = .ok ff := by
  simp only [FragmentedFrame.add_packet, hs]
  rw [if_pos hvalid]

/-- Witness for C10: slot 0 holds payload `[5]`; adding a matching packet
carrying payload `[77]` is accepted as a no-op and the state is unchanged. -/
theorem add_packet_duplicate_slot_witness :
    (FragmentedFrame.mk 1 2 1 [Packet.mk true 1 2 0 1 0 [5]] 0).add_packet
        (Packet.mk true 1 2 0 1 0 [77]) =
      .ok (FragmentedFrame.mk 1 2 1 [Packet.mk true 1 2 0 1 0 [5]] 0) :=
  add_packet_duplicate_slot _ _ (by decide) (by decide)

/-- C5: idempotent add.  If `add_packet p` succeeds and returns `ff'`,
adding the same (valid) packet again is a no-op returning `ff'` itself, so
`remaining_fragments` and the outputs of `frame()` and `partial_frame()`
after the second add are identical to their values after the first.
`hlen` is the slot-array size established by both constructors. -/
theorem add_packet_idempotent (ff : FragmentedFrame) (p : Packet)
    (ff' : FragmentedFrame)
    (hlen : ff.fragments.length = ff.fragments_in_this_frame)
    (hv : p.valid = true)
    (h : ff.add_packet p = .ok ff') :
    ff'.add_packet p = .ok ff' := by
  rcases hs : ff.sanity_check p with e | u
  · simp only [FragmentedFrame.add_packet, hs] at h
    exact Except.noConfusion h
  · obtain ⟨hcid, hfitf, hfno, hlt⟩ := (sanity_check_ok_iff ff p).mp
      (by rw [hs])
    simp only [FragmentedFrame.add_packet, hs] at h
    by_cases hslot : (ff.fragments.getD p.fragment_no Packet.empty).valid
    · rw [if_pos hslot] at h
      injection h with h
      subst h
      simp only [FragmentedFrame.add_packet, hs]
      rw [if_pos hslot]
    · rw [if_neg hslot] at h
      injection h with h
      subst h
      have hs' : FragmentedFrame.sanity_check
          { ff with
            remaining_fragments := ff.remaining_fragments - 1,
            fragments := ff.fragments.set p.fragment_no p } p = .ok u := hs
      have hval' : (((ff.fragments.set p.fragment_no p)).getD p.fragment_no
          Packet.empty).valid = true := by
        rw [getD_set_self (by omega) p]; exact hv
      simp only [FragmentedFrame.add_packet, hs']
      rw [if_pos hval']

/-- Witness for C5: a two-slot incoming frame; adding fragment 1 a second
time returns the state unchanged. -/
theorem add_packet_idempotent_witness :
    (FragmentedFrame.mk 1 2 2 [Packet.empty, Packet.mk true 1 2 1 2 0 [9]] 1).add_packet
        (Packet.mk true 1 2 1 2 0 [9]) =
      .ok (FragmentedFrame.mk 1 2 2 [Packet.empty, Packet.mk true 1 2 1 2 0 [9]] 1) :=
  add_packet_idempotent
    (FragmentedFrame.mk 1 2 2 [Packet.empty, Packet.empty] 2)
    (Packet.mk true 1 2 1 2 0 [9]) _ (by decide) (by decide) (by decide)

/-! ### Reachable frames and the remaining-fragments invariant -/

theorem split_loop_all_valid (MP : Nat) (B : List Nat) (cid fno : Nat) :
    ∀ (gas idx next : Nat) (l : List Packet),
      FragmentedFrame.split_loop MP B cid fno gas idx next = some l →
      ∀ p ∈ l, p.valid = true := by
  intro gas
  induction gas with
  | zero =>
    intro idx next l hl p hp
    rw [FragmentedFrame.split_loop] at hl
    split_ifs at hl
    all_goals first
      | exact Option.noConfusion hl
      | (injection hl with hl; subst hl; simp at hp)
  | succ g ih =>
    intro idx next l hl p hp
    rw [FragmentedFrame.split_loop] at hl
    split_ifs at hl
    · rcases hrec : FragmentedFrame.split_loop MP B cid fno g (idx + 1)
          (Packet.outgoing MP B cid fno idx 0).2 with _ | ps
      · rw [hrec] at hl
        exact Option.noConfusion hl
      · rw [hrec] at hl
        injection hl with hl
        subst hl
        rcases List.mem_cons.mp hp with he | hin
        · rw [he]
          rfl
        · exact ih (idx + 1) _ ps hrec p hin
    · injection hl with hl
      subst hl
      simp at hp

theorem set_back_ttn_valid (ttn : Nat) :
    ∀ l : List Packet, (∀ p ∈ l, p.valid = true) →
      ∀ p ∈ FragmentedFrame.set_back_time_to_next ttn l, p.valid = true
  | [], _ => by
    intro p hp
    simp [FragmentedFrame.set_back_time_to_next] at hp
  | [q], h => by
    intro p hp
    simp only [FragmentedFrame.set_back_time_to_next, List.mem_singleton] at hp
    subst hp
    exact h q (by simp)
  | q :: r :: rs, h => by
    intro x hx
    rw [FragmentedFrame.set_back_time_to_next] at hx
    rcases List.mem_cons.mp hx with he | hin
    · rw [he]
      exact h q (by simp)
    · exact set_back_ttn_valid ttn (r :: rs)
        (fun y hy => h y (List.mem_cons_of_mem q hy)) x hin

theorem outgoing_inv9 (MP cid fno ttn : Nat) (B : List Nat)
    (ff : FragmentedFrame)
    (h : FragmentedFrame.outgoing MP cid fno ttn B = some ff) :
    ff.fragments_in_this_frame ≤ ff.fragments.length ∧
    ff.remaining_fragments = ff.fragments.countP (fun f => !f.valid) := by
  unfold FragmentedFrame.outgoing at h
  rcases hsl : FragmentedFrame.split_loop MP B cid fno 65536 0 0 with _ | l
  · rw [hsl] at h
    exact Option.noConfusion h
  rcases l with _ | ⟨f, fs⟩
  · rw [hsl] at h
    exact Option.noConfusion h
  rw [hsl] at h
  injection h with h
  subst h
  constructor
  · simp only [List.length_map, set_back_ttn_length]
    exact Nat.mod_le _ _
  · symm
    apply List.countP_eq_zero.mpr
    intro q hq
    simp only [List.mem_map] at hq
    obtain ⟨orig, horig, rfl⟩ := hq
    have hov : orig.valid = true :=
      set_back_ttn_valid ttn (f :: fs)
        (split_loop_all_valid MP B cid fno 65536 0 0 (f :: fs) hsl) orig horig
    simp [Packet.set_fragments_in_this_frame, hov]

theorem add_packet_inv9 (ff : FragmentedFrame) (p : Packet)
    (ff' : FragmentedFrame) (hv : p.valid = true)
    (h1 : ff.fragments_in_this_frame ≤ ff.fragments.length)
    (h2 : ff.remaining_fragments = ff.fragments.countP (fun f => !f.valid))
    (h : ff.add_packet p = .ok ff') :
    ff'.fragments_in_this_frame ≤ ff'.fragments.length ∧
    ff'.remaining_fragments = ff'.fragments.countP (fun f => !f.valid) := by
  rcases hs : ff.sanity_check p with e | u
  · simp only [FragmentedFrame.add_packet, hs] at h
    exact Except.noConfusion h
  · obtain ⟨-, -, -, hlt⟩ := (sanity_check_ok_iff ff p).mp (by rw [hs])
    simp only [FragmentedFrame.add_packet, hs] at h
    by_cases hslot : (ff.fragments.getD p.fragment_no Packet.empty).valid
    · rw [if_pos hslot] at h
      injection h with h
      subst h
      exact ⟨h1, h2⟩
    · rw [if_neg hslot] at h
      injection h with h
      subst h
      have hjlen : p.fragment_no < ff.fragments.length := by omega
      have hslotf : (ff.fragments.getD p.fragment_no Packet.empty).valid
          = false := by
        revert hslot
        cases (ff.fragments.getD p.fragment_no Packet.empty).valid <;> simp
      have hc := countP_invalid_set ff.fragments p.fragment_no hjlen hslotf p hv
      constructor
      · simp only [List.length_set]
        exact h1
      · simp only [List.length_set]
        omega

attribute [irreducible] FragmentedFrame.outgoing FragmentedFrame.incoming
  FragmentedFrame.add_packet

/-- The `FragmentedFrame` states reachable in the program: an outgoing frame
built from a buffer, an incoming frame founded by a first fragment, or the
result of a further `add_packet` call.  Every `Packet` fed to the incoming
paths in the program is built by a non-default `Packet` constructor and is
therefore valid, which the `inc`/`add` cases record. -/
inductive Reachable : FragmentedFrame → Prop where
  | out : ∀ (MP cid fno ttn : Nat) (B : List Nat) (ff : FragmentedFrame),
      FragmentedFrame.outgoing MP cid fno ttn B = some ff → Reachable ff
  | inc : ∀ (cid : Nat) (p : Packet) (ff : FragmentedFrame),
      p.valid = true → FragmentedFrame.incoming cid p = .ok ff → Reachable ff
  | add : ∀ (ff : FragmentedFrame) (p : Packet) (ff' : FragmentedFrame),
      Reachable ff → p.valid = true → ff.add_packet p = .ok ff' →
      Reachable ff'

set_option allowUnsafeReducibility true in
attribute [semireducible] FragmentedFrame.outgoing

set_option allowUnsafeReducibility true in
attribute [semireducible] FragmentedFrame.incoming

set_option allowUnsafeReducibility true in
attribute [semireducible] FragmentedFrame.add_packet

theorem incoming_inv9 (cid : Nat) (p : Packet) (ff : FragmentedFrame)
    (hv : p.valid = true)
    (h : FragmentedFrame.incoming cid p = .ok ff) :
    ff.fragments_in_this_frame ≤ ff.fragments.length ∧
    ff.remaining_fragments = ff.fragments.countP (fun f => !f.valid) := by
  simp only [FragmentedFrame.incoming] at h
  rcases hs : FragmentedFrame.sanity_check
      { connection_id := cid, frame_no := p.frame_no,
        fragments_in_this_frame := p.fragments_in_this_frame,
        fragments := List.replicate p.fragments_in_this_frame Packet.empty,
        remaining_fragments := p.fragments_in_this_frame } p with e | u
  · rw [hs] at h
    exact Except.noConfusion h
  · rw [hs] at h
    exact add_packet_inv9 _ p ff hv (by simp)
      (by simp [countP_invalid_replicate]) h

/-- C9: remaining-fragments invariant.  For every `FragmentedFrame`
reachable through construction (outgoing or incoming) followed by any
sequence of `add_packet` calls, `remaining_fragments` equals the number of
invalid slots of the fragment array (so it is decremented exactly once per
slot that becomes valid). -/
theorem remaining_fragments_invariant (ff : FragmentedFrame)
    (h : Reachable ff) :
    ff.remaining_fragments = ff.fragments.countP (fun f => !f.valid) := by
  suffices hmain : ff.fragments_in_this_frame ≤ ff.fragments.length ∧
      ff.remaining_fragments = ff.fragments.countP (fun f => !f.valid) from
    hmain.2
  induction h with
  | out MP cid fno ttn B ff hout => exact outgoing_inv9 MP cid fno ttn B ff hout
  | inc cid p ff hv hinc => exact incoming_inv9 cid p ff hv hinc
  | add ff p ff' _ hv hadd ih => exact add_packet_inv9 ff p ff' hv ih.1 ih.2 hadd

/-- Witness for C9: the incoming frame founded by the only fragment of a
one-fragment frame has `remaining_fragments = 0` and zero invalid slots. -/
theorem remaining_fragments_invariant_witness :
    (FragmentedFrame.mk 1 2 1 [Packet.mk true 1 2 0 1 0 [7]] 0).remaining_fragments
      = (FragmentedFrame.mk 1 2 1
          [Packet.mk true 1 2 0 1 0 [7]] 0).fragments.countP
          (fun f => !f.valid) :=
  remaining_fragments_invariant _
    (Reachable.inc 1 (Packet.mk true 1 2 0 1 0 [7]) _ rfl (by rfl))
